import Mathlib

/-!
# Verification of the burrow-owls family journaling site

Shallow embedding of the Python sources (`src/app.py`, `src/models.py`) of the
burrow-owls repository, together with theorems settling the specification
claims about it.

Conventions of the embedding:
* Python strings are Lean `String`s; character-level operations (`str.lower`,
  `str.strip`, `str.isdigit`, regex character classes) are modelled on their
  ASCII behaviour, which is the behaviour exercised by the code and the spec.
* Fallible Python code (uncaught exceptions, `abort(...)`) is modelled with
  `Except`/`Option`; a `.error` value stands for an exception escaping to the
  caller.
* The database tables touched by the audiobook routes are modelled as lists of
  row records; SQLAlchemy `add`+`commit` is an append.
* HTML documents are modelled as already-parsed trees (BeautifulSoup's
  `html.parser` accepts any byte string and produces some tree, so quantifying
  over all trees covers all response bodies).
-/

/-! ## Python string primitives -/

/-- Characters of the regex class `[a-z0-9]` (`slugify`'s kept characters);
stated on code points (`97..122` is `a..z`, `48..57` is `0..9`). -/
def isLowerAlnum (c : Char) : Bool :=
  (97 ≤ c.toNat && c.toNat ≤ 122) || (48 ≤ c.toNat && c.toNat ≤ 57)

/-- ASCII model of Python `str.lower()`. -/
def pyLower (s : String) : String :=
  ⟨s.data.map Char.toLower⟩

/-- Drop the characters satisfying `p` from the end of a list. -/
def rdropC (p : Char → Bool) (l : List Char) : List Char :=
  (l.reverse.dropWhile p).reverse

/-- Drop the characters satisfying `p` from both ends of a list
(the shape of Python's `str.strip`). -/
def dropEnds (p : Char → Bool) (l : List Char) : List Char :=
  rdropC p (l.dropWhile p)

/-- Model of Python `str.strip()` (no argument): remove whitespace from both
ends. -/
def pystrip (s : String) : String :=
  ⟨dropEnds Char.isWhitespace s.data⟩

/-- ASCII decimal digit. -/
def isDigitC (c : Char) : Bool :=
  '0' ≤ c && c ≤ '9'

/-- Model of Python `str.isdigit()` (ASCII): nonempty and all decimal digits. -/
def pyIsdigit (s : String) : Bool :=
  !s.data.isEmpty && s.data.all isDigitC

/-- Numeric value of a digit character. -/
def digitVal (c : Char) : Nat :=
  c.toNat - 48

/-- Model of Python `int(...)` on an all-digit string. -/
def pyInt (s : String) : Nat :=
  s.data.foldl (fun acc c => 10 * acc + digitVal c) 0

/-- Truthiness of an optional string (`if x:` in Python for a
`request.form.get` result): present and nonempty. -/
def pyTruthy : Option String → Bool
  | some s => s ≠ ""
  | none => false

/-- `needle` is a prefix of `hay` (character lists). -/
def isPrefixC : List Char → List Char → Bool
  | [], _ => true
  | _ :: _, [] => false
  | a :: as, b :: bs => a == b && isPrefixC as bs

/-- `needle` occurs as a contiguous substring of `hay`; used to model
`re.search` with a literal pattern. -/
def containsSub (needle : List Char) : List Char → Bool
  | [] => isPrefixC needle []
  | l@(_ :: t) => isPrefixC needle l || containsSub needle t

/-- A string contains a given character. -/
def containsChar (s : String) (c : Char) : Bool :=
  s.data.contains c

/-- Model of Python `s.split(sep, 1)` for a single-character separator:
at most one split, at the first occurrence. -/
def splitOnce (sep : Char) : List Char → List (List Char)
  | [] => [[]]
  | x :: xs =>
      if x == sep then [[], xs]
      else
        match splitOnce sep xs with
        | h :: t => (x :: h) :: t
        | [] => [[x]]

/-- Model of Python `s.split(sep)` for a single-character separator
(full split; empty pieces kept). -/
def splitAll (sep : Char) : List Char → List (List Char)
  | [] => [[]]
  | x :: xs =>
      if x == sep then [] :: splitAll sep xs
      else
        match splitAll sep xs with
        | h :: t => (x :: h) :: t
        | [] => [[x]]

/-- Join a list of strings with a separator (Python `sep.join(parts)`). -/
def joinSep (sep : String) : List String → String
  | [] => ""
  | [x] => x
  | x :: xs => x ++ sep ++ joinSep sep xs

/-! ## Slug normalizer (src/app.py, `slugify`, lines 72-75)

```python
def slugify(text: str) -> str:
    text = text.lower()
    text = re.sub(r"[^a-z0-9]+", "-", text)
    return text.strip("-")
```
-/

/-- Embedding of `re.sub(r"[^a-z0-9]+", "-", text)`: each maximal run of
characters outside `[a-z0-9]` is replaced by a single `'-'`.  The Boolean flag
records whether we are inside a run whose `'-'` has already been emitted. -/
def subDashAux : Bool → List Char → List Char
  | _, [] => []
  | inRun, c :: cs =>
      if isLowerAlnum c then c :: subDashAux false cs
      else if inRun then subDashAux true cs
      else '-' :: subDashAux true cs

/-- `text.strip("-")`. -/
def stripDashes (l : List Char) : List Char :=
  dropEnds (· == '-') l

/-- Embedding of `slugify` (src/app.py lines 72-75). -/
def slugify (s : String) : String :=
  ⟨stripDashes (subDashAux false (pyLower s).data)⟩

/-- The maximal runs of `[a-z0-9]` characters of a list, in order
(spec-side notion used to state what `slugify` computes). -/
def runsAux (cur : List Char) : List Char → List (List Char)
  | [] => if cur.isEmpty then [] else [cur.reverse]
  | c :: cs =>
      if isLowerAlnum c then runsAux (c :: cur) cs
      else if cur.isEmpty then runsAux [] cs
      else cur.reverse :: runsAux [] cs

/-- Maximal `[a-z0-9]` runs of a character list. -/
def alnumRuns (l : List Char) : List (List Char) :=
  runsAux [] l

/-- The spec's description of the slug normalizer: lowercase, keep the maximal
`[a-z0-9]` runs, and join them with single dashes (equivalently: collapse each
maximal run of other characters to one `'-'` and trim dashes at the ends). -/
def slugifySpec (s : String) : String :=
  ⟨List.intercalate ['-'] (alnumRuns (pyLower s).data)⟩

/-! ## People and identity resolution (src/app.py, lines 55-69)

```python
PEOPLE = {"richard": "Richard", ...}

def normalize_person(person: str):
    key = person.lower()
    if key not in PEOPLE:
        abort(404)
    return key, PEOPLE[key]
```
-/

/-- The `PEOPLE` dict (src/app.py lines 55-62), as an association list. -/
def PEOPLE : List (String × String) :=
  [("richard", "Richard"), ("gillian", "Gillian"), ("felicity", "Felicity"),
   ("elisabeth", "Elisabeth"), ("penelope", "Penelope"),
   ("peregrine", "Peregrine")]

/-- Embedding of `normalize_person`; `.error ()` models `abort(404)`. -/
def normalize_person (person : String) : Except Unit (String × String) :=
  let key := pyLower person
  match PEOPLE.lookup key with
  | none => .error ()
  | some name => .ok (key, name)

/-! ## Unlock (src/app.py, lines 78-83 and 194-203)

```python
def uploads_disabled() -> bool:
    return not bool(UPLOAD_KEY)

def is_unlocked() -> bool:
    return session.get("unlocked", False)

@app.post("/<person>/unlock")
def unlock(person):
    if uploads_disabled():
        abort(403)
    key = request.form.get("upload_key", "")
    if key == UPLOAD_KEY:
        session["unlocked"] = True
    return redirect(request.referrer or f"/{person}")
```
-/

/-- `uploads_disabled`: the environment variable `UPLOAD_KEY` is unset
(`none`) or empty. -/
def uploads_disabled (uploadKey : Option String) : Bool :=
  match uploadKey with
  | none => true
  | some s => s == ""

/-- The session state read by `is_unlocked`: `session.get("unlocked", False)`. -/
structure Session where
  unlocked : Bool
deriving DecidableEq

/-- `is_unlocked` (src/app.py lines 82-83). -/
def is_unlocked (s : Session) : Bool :=
  s.unlocked

/-- Python `key == UPLOAD_KEY`: comparing a string with an optional string
(`str == None` is `False`). -/
def pyEqOpt (k : String) : Option String → Bool
  | some u => k == u
  | none => false

/-- Embedding of the `unlock` route body; `.error ()` models `abort(403)`
(which leaves the session untouched).  `formKey` is
`request.form.get("upload_key", "")`. -/
def unlock (uploadKey : Option String) (formKey : String) (s : Session) :
    Except Unit Session :=
  if uploads_disabled uploadKey then .error ()
  else if pyEqOpt formKey uploadKey then .ok { s with unlocked := true }
  else .ok s

/-- The session after a POST to `/unlock`: on `abort(403)` the session is
unchanged. -/
def sessionAfterUnlock (uploadKey : Option String) (formKey : String)
    (s : Session) : Session :=
  match unlock uploadKey formKey s with
  | .ok s' => s'
  | .error _ => s

/-! ## Audiobook create/save (src/app.py, `audiobook_create` lines 256-284 and
`audiobook_save` lines 335-360)

The `Audiobook` model (src/app.py lines 119-138) is the table these routes
write.  A `date` column is represented by its ISO string.
-/

/-- A row of the `Audiobook` table (the columns the create/save routes
write). -/
structure AudiobookRow where
  person : String
  title : String
  slug : String
  author : Option String
  narrator : Option String
  audible_url : Option String
  review_text : Option String
  rating : Option Nat
  listened_date : Option String
deriving DecidableEq, Repr

/-- The form fields read by `audiobook_create`/`audiobook_save`
(`request.form`; `title` is accessed with `request.form["title"]` and is
modelled as present). -/
structure AudiobookForm where
  title : String
  author : Option String
  narrator : Option String
  audible_url : Option String
  review_text : Option String
  rating : Option String
  listened_date : Option String

/-- Gregorian leap year (as validated by Python `datetime`). -/
def isLeap (y : Nat) : Bool :=
  y % 4 == 0 && (y % 100 != 0 || y % 400 == 0)

/-- Days in a month, as validated by Python `datetime.date`. -/
def daysInMonth (y m : Nat) : Nat :=
  if m == 2 then (if isLeap y then 29 else 28)
  else if m == 4 || m == 6 || m == 9 || m == 11 then 30
  else 31

/-- Model of Python `date.fromisoformat` (strict `YYYY-MM-DD` form): `none`
models the `ValueError` it raises on any other input. -/
def pyDateFromIso (s : String) : Option String :=
  match s.data with
  | [y1, y2, y3, y4, '-', m1, m2, '-', d1, d2] =>
      if [y1, y2, y3, y4, m1, m2, d1, d2].all isDigitC then
        let y := pyInt ⟨[y1, y2, y3, y4]⟩
        let m := pyInt ⟨[m1, m2]⟩
        let d := pyInt ⟨[d1, d2]⟩
        if 1 ≤ m && m ≤ 12 && 1 ≤ d && d ≤ daysInMonth y m then some s
        else none
      else none
  | _ => none

/-- The rating update performed by both `audiobook_create` (lines 272-274) and
`audiobook_save` (lines 350-352):

```python
rating = request.form.get("rating")
if rating and rating.isdigit():
    ab.rating = int(rating)
```

`old` is the value of `ab.rating` before the statement (`none` in
`audiobook_create`, the stored value in `audiobook_save`).  There is no range
check. -/
def ratingUpdate (old : Option Nat) (input : Option String) : Option Nat :=
  match input with
  | some r => if r ≠ "" && pyIsdigit r then some (pyInt r) else old
  | none => old

/-- Embedding of the row constructed and committed by `audiobook_create`
(lines 256-284); `.error ()` models the uncaught `ValueError` of
`date.fromisoformat` on a malformed `listened_date`. -/
def audiobookCreate (person_key : String) (f : AudiobookForm) :
    Except Unit AudiobookRow :=
  let title := pystrip f.title
  let base : AudiobookRow :=
    { person := person_key, title := title, slug := slugify title,
      author := f.author, narrator := f.narrator,
      audible_url := f.audible_url, review_text := f.review_text,
      rating := ratingUpdate none f.rating, listened_date := none }
  if pyTruthy f.listened_date then
    match f.listened_date with
    | some dstr =>
        match pyDateFromIso dstr with
        | some d => .ok { base with listened_date := some d }
        | none => .error ()
    | none => .ok base
  else .ok base

/-- `db.session.add(ab); db.session.commit()` in `audiobook_create`: the table
after the request (an exception commits nothing). -/
def audiobookCreateOp (db : List AudiobookRow) (person_key : String)
    (f : AudiobookForm) : List AudiobookRow :=
  match audiobookCreate person_key f with
  | .ok row => db ++ [row]
  | .error _ => db

/-- The field updates performed by `audiobook_save` (lines 344-357) on the row
found by `(person, id)`. -/
def audiobookSaveRow (row : AudiobookRow) (f : AudiobookForm) :
    Except Unit AudiobookRow :=
  let base : AudiobookRow :=
    { row with title := pystrip f.title, author := f.author,
               narrator := f.narrator, review_text := f.review_text,
               audible_url := f.audible_url,
               rating := ratingUpdate row.rating f.rating }
  if pyTruthy f.listened_date then
    match f.listened_date with
    | some dstr =>
        match pyDateFromIso dstr with
        | some d => .ok { base with listened_date := some d }
        | none => .error ()
    | none => .ok base
  else .ok base

/-- Number of rows of the audiobook table with a given `(person, slug)` key. -/
def countKey (db : List AudiobookRow) (person slug : String) : Nat :=
  (db.filter (fun r => r.person == person && r.slug == slug)).length

/-! ## HTML documents and the metadata scraper (src/app.py, `fetch_metadata`,
lines 367-495)

An upstream response body is modelled as a parsed tree (tag, `class` attribute
values, children), the form in which `BeautifulSoup(resp.content,
"html.parser")` hands it to the extraction code.  `html.parser` accepts any
input and never raises, so quantifying over trees quantifies over bodies. -/

mutual

/-- A parsed HTML node: a text node, or an element with tag name, `class`
attribute values and children. -/
inductive Html where
  | htext : String → Html
  | helem : String → List String → HtmlList → Html

/-- A list of sibling HTML nodes. -/
inductive HtmlList where
  | hnil : HtmlList
  | hcons : Html → HtmlList → HtmlList

end

/-- Tag name of a node (text nodes have none). -/
def tagOf : Html → String
  | .htext _ => ""
  | .helem t _ _ => t

/-- `class` attribute values of a node. -/
def classesOf : Html → List String
  | .htext _ => []
  | .helem _ c _ => c

mutual

/-- All text-node strings below a node, in document order
(the strings `get_text` joins). -/
def textsN : Html → List String
  | .htext s => [s]
  | .helem _ _ ch => textsL ch

/-- All text-node strings below a list of nodes, in document order. -/
def textsL : HtmlList → List String
  | .hnil => []
  | .hcons n ns => textsN n ++ textsL ns

end

/-- `tag.get_text(sep, strip=True)`: join with `sep` the stripped, nonempty
descendant strings (BeautifulSoup semantics for `strip=True`). -/
def getTextS (sep : String) (n : Html) : String :=
  joinSep sep (((textsN n).map pystrip).filter (fun t => t ≠ ""))

mutual

/-- All text occurrences below a node in document order, each paired with its
chain of ancestor elements, innermost first (the structure backing
`soup.find(string=...)`, `.parent`, `.find_parent`, `.find_next`). -/
def occsN : Html → List (String × List Html)
  | .htext s => [(s, [])]
  | .helem t c ch => (occsL ch).map (fun o => (o.1, o.2 ++ [Html.helem t c ch]))

/-- Text occurrences below a list of nodes, in document order. -/
def occsL : HtmlList → List (String × List Html)
  | .hnil => []
  | .hcons n ns => occsN n ++ occsL ns

end

mutual

/-- `soup.find(...)` restricted to element filters: the first element in
document (pre-order) whose tag and classes satisfy `p`. -/
def findElemN (p : String → List String → Bool) : Html → Option Html
  | .htext _ => none
  | .helem t c ch => if p t c then some (.helem t c ch) else findElemL p ch

/-- `findElemN` over a list of sibling nodes. -/
def findElemL (p : String → List String → Bool) : HtmlList → Option Html
  | .hnil => none
  | .hcons n ns =>
      match findElemN p n with
      | some r => some r
      | none => findElemL p ns

end

mutual

/-- All `<a>` elements at or below a node, in document order. -/
def anchorsN : Html → List Html
  | .htext _ => []
  | .helem t c ch =>
      (if t == "a" then [Html.helem t c ch] else []) ++ anchorsL ch

/-- All `<a>` elements at or below a list of nodes. -/
def anchorsL : HtmlList → List Html
  | .hnil => []
  | .hcons n ns => anchorsN n ++ anchorsL ns

end

/-- `tag.find_all("a")`: the descendant `<a>` elements. -/
def anchorsOf : Html → List Html
  | .htext _ => []
  | .helem _ _ ch => anchorsL ch

/-- `re.search` for an alternation of literal labels (the patterns used are
`By:|Author:`, `Narrated by:`, `Release date:`): some alternative occurs as a
substring. -/
def matchesAny (pats : List String) (s : String) : Bool :=
  pats.any (fun p => containsSub p.data s.data)

/-- First matching text occurrence (`soup.find(string=re.compile(...))`),
with its position among all text occurrences. -/
def findOccAux (p : String → Bool) : Nat → List (String × List Html) →
    Option (Nat × String × List Html)
  | _, [] => none
  | i, o :: os => if p o.1 then some (i, o.1, o.2) else findOccAux p (i + 1) os

/-- `soup.find(string=re.compile(pat))` for an alternation of literal
labels. -/
def findLabelString (root : Html) (pats : List String) :
    Option (Nat × String × List Html) :=
  findOccAux (matchesAny pats) 0 (occsN root)

/-- `label.find_next(string=True)`: the next text node in document order. -/
def nextString (root : Html) (i : Nat) : Option String :=
  ((occsN root).drop (i + 1)).head?.map (fun o => o.1)

/-- `label.find_parent(tags)`: the nearest ancestor whose tag is in `tags`. -/
def findParentTag (anc : List Html) (tags : List String) : Option Html :=
  anc.find? (fun a => tags.contains (tagOf a))

/-- Embedding of the nested helper `get_text_by_label` (src/app.py lines
395-421).  `.error ()` models the `AttributeError` raised by
`label.find_next(string=True).strip()` when `find_next` returns `None`. -/
def get_text_by_label (root : Html) (pats : List String) :
    Except Unit (Option String) :=
  match findLabelString root pats with
  | none => .ok none
  | some (i, _, anc) =>
      let case2 : Except Unit (Option String) :=
        match findParentTag anc ["li", "div", "tr"] with
        | some container =>
            let full := getTextS " " container
            if containsChar full ':' then
              match splitOnce ':' full.data with
              | [_, v] => .ok (some (pystrip ⟨v⟩))
              | _ => .error ()
            else .ok (some full)
        | none =>
            match nextString root i with
            | some t => .ok (some (pystrip t))
            | none => .error ()
      match anc.head? with
      | some parent =>
          let full := getTextS " " parent
          if containsChar full ':' then
            match splitOnce ':' full.data with
            | [_, v] => .ok (some (pystrip ⟨v⟩))
            | _ => case2
          else case2
      | none => case2

/-- The `class_=lambda x: x != "bc-modal-header" if x else True` filter of
`get_links_after_label`: matches when the element has no class, or some class
value other than `"bc-modal-header"`. -/
def classFilterOk (cls : List String) : Bool :=
  cls.isEmpty || cls.any (fun c => c != "bc-modal-header")

/-- Embedding of the nested helper `get_links_after_label` (src/app.py lines
424-435). -/
def get_links_after_label (root : Html) (pats : List String) : Option String :=
  match findLabelString root pats with
  | none => none
  | some (_, _, anc) =>
      match anc.find? (fun a =>
          (tagOf a == "li" || tagOf a == "div") && classFilterOk (classesOf a)) with
      | none => none
      | some container =>
          match anchorsOf container with
          | [] => none
          | links => some (joinSep ", " (links.map (getTextS "")))

/-! ### `datetime.strptime` for the two formats the code tries

CPython's `_strptime` compiles `%m-%d-%y` to the regex
`(1[0-2]|0[1-9]|[1-9])-(3[01]|[12]\d|0[1-9]|[1-9])-(\d\d)` (and `%Y` to
`\d\d\d\d`), requires the whole string to be consumed, applies the
two-digit-year rule (`<= 68` is 2000-based) and validates the day against the
month when constructing the `datetime`.  `tryAlts` realises the regex
alternation with backtracking. -/

/-- Try the listed alternatives in order; the continuation decides whether the
rest of the pattern matches. -/
def tryAlts (k : Nat → List Char → Option α) :
    List (Nat × List Char) → Option α
  | [] => none
  | (v, r) :: more =>
      match k v r with
      | some x => some x
      | none => tryAlts k more

/-- Alternatives of `%m` = `1[0-2]|0[1-9]|[1-9]`, in regex order. -/
def mAlts : List Char → List (Nat × List Char)
  | '1' :: b :: rest =>
      (if '0' ≤ b && b ≤ '2' then [(10 + digitVal b, rest)] else []) ++
        [(1, b :: rest)]
  | '0' :: b :: rest => if '1' ≤ b && b ≤ '9' then [(digitVal b, rest)] else []
  | c :: rest => if '1' ≤ c && c ≤ '9' then [(digitVal c, rest)] else []
  | [] => []

/-- Alternatives of `%d` = `3[01]|[12]\d|0[1-9]|[1-9]`, in regex order. -/
def dAlts : List Char → List (Nat × List Char)
  | '3' :: b :: rest =>
      (if b == '0' || b == '1' then [(30 + digitVal b, rest)] else []) ++
        [(3, b :: rest)]
  | '0' :: b :: rest => if '1' ≤ b && b ≤ '9' then [(digitVal b, rest)] else []
  | c :: b :: rest =>
      if c == '1' || c == '2' then
        (if isDigitC b then [(10 * digitVal c + digitVal b, rest)] else []) ++
          [(digitVal c, b :: rest)]
      else if '1' ≤ c && c ≤ '9' then [(digitVal c, b :: rest)] else []
  | [c] => if '1' ≤ c && c ≤ '9' then [(digitVal c, [])] else []
  | [] => []

/-- The single alternative of `%y` = `\d\d`. -/
def y2Alt : List Char → List (Nat × List Char)
  | a :: b :: rest =>
      if isDigitC a && isDigitC b then
        [(10 * digitVal a + digitVal b, rest)]
      else []
  | _ => []

/-- The single alternative of `%Y` = `\d\d\d\d`. -/
def y4Alt : List Char → List (Nat × List Char)
  | a :: b :: c :: d :: rest =>
      if [a, b, c, d].all isDigitC then
        [(1000 * digitVal a + 100 * digitVal b + 10 * digitVal c + digitVal d,
          rest)]
      else []
  | _ => []

/-- `datetime.strptime(s, "%m-%d-%y")`, as `(year, month, day)`; `none` models
the `ValueError`. -/
def strptimeMdy (s : String) : Option (Nat × Nat × Nat) :=
  tryAlts (fun m r1 =>
    match r1 with
    | '-' :: r2 =>
        tryAlts (fun d r3 =>
          match r3 with
          | '-' :: r4 =>
              tryAlts (fun y r5 =>
                if r5.isEmpty then
                  let yy := if y ≤ 68 then 2000 + y else 1900 + y
                  if d ≤ daysInMonth yy m then some (yy, m, d) else none
                else none) (y2Alt r4)
          | _ => none) (dAlts r2)
    | _ => none) (mAlts s.data)

/-- `datetime.strptime(s, "%m-%d-%Y")`, as `(year, month, day)`; `none` models
the `ValueError`. -/
def strptimeMdY (s : String) : Option (Nat × Nat × Nat) :=
  tryAlts (fun m r1 =>
    match r1 with
    | '-' :: r2 =>
        tryAlts (fun d r3 =>
          match r3 with
          | '-' :: r4 =>
              tryAlts (fun y r5 =>
                if r5.isEmpty then
                  if 1 ≤ y && d ≤ daysInMonth y m then some (y, m, d) else none
                else none) (y4Alt r4)
          | _ => none) (dAlts r2)
    | _ => none) (mAlts s.data)

/-- Zero-padded two-digit rendering (`strftime` `%m`/`%d`). -/
def pad2 (n : Nat) : String :=
  if n < 10 then "0" ++ toString n else toString n

/-- Zero-padded four-digit rendering (`strftime` `%Y`). -/
def pad4 (n : Nat) : String :=
  if n < 10 then "000" ++ toString n
  else if n < 100 then "00" ++ toString n
  else if n < 1000 then "0" ++ toString n
  else toString n

/-- `dt.strftime("%Y-%m-%d")`. -/
def fmtYmd : Nat × Nat × Nat → String
  | (y, m, d) => pad4 y ++ "-" ++ pad2 m ++ "-" ++ pad2 d

/-- The optional third and fourth digit of `\d{2,4}` (greedy). -/
def extraDigits : List Char → List Char
  | g :: h :: _ => if isDigitC g then (if isDigitC h then [g, h] else [g]) else []
  | [g] => if isDigitC g then [g] else []
  | [] => []

/-- Match of `\d{2}-\d{2}-\d{2,4}` anchored at the start of the list. -/
def dateTokenAt : List Char → Option (List Char)
  | a :: b :: '-' :: c :: d :: '-' :: e :: f :: rest =>
      if [a, b, c, d, e, f].all isDigitC then
        some ([a, b, '-', c, d, '-', e, f] ++ extraDigits rest)
      else none
  | _ => none

/-- `re.search(r"(\d{2}-\d{2}-\d{2,4})", ...)`: leftmost match. -/
def dateTokenSearch : List Char → Option (List Char)
  | [] => none
  | l@(_ :: t) =>
      match dateTokenAt l with
      | some tok => some tok
      | none => dateTokenSearch t

/-- Embedding of the release-date extraction of `fetch_metadata` (src/app.py
lines 464-493).  `.error ()` models an uncaught exception (the tuple-unpack /
index on `split` results; provably unreachable). -/
def releaseOf (root : Html) : Except Unit (Option String) :=
  match findElemN (fun t cs => t == "li" && cs.contains "releaseDateLabel") root with
  | some li =>
      let text := getTextS "" li
      if containsChar text ':' then
        match splitOnce ':' text.data with
        | [_, v] =>
            match strptimeMdy (pystrip ⟨v⟩) with
            | some ymd => .ok (some (fmtYmd ymd))
            | none => .ok none
        | _ => .error ()
      else .ok none
  | none =>
      match findLabelString root ["Release date:"] with
      | none => .ok none
      | some (_, s, anc) =>
          let full : String :=
            match findParentTag anc ["li", "div"] with
            | some cont => getTextS "" cont
            | none => s
          match dateTokenSearch full.data with
          | none => .ok none
          | some tok =>
              match splitAll '-' tok with
              | _ :: _ :: yr :: _ =>
                  if yr.length == 2 then
                    match strptimeMdy ⟨tok⟩ with
                    | some ymd => .ok (some (fmtYmd ymd))
                    | none => .ok none
                  else
                    match strptimeMdY ⟨tok⟩ with
                    | some ymd => .ok (some (fmtYmd ymd))
                    | none => .ok none
              | _ => .error ()

/-- Embedding of the author extraction (src/app.py lines 437-450). -/
def authorOf (root : Html) : Except Unit (Option String) :=
  match findElemN (fun t cs => t == "li" && cs.contains "authorLabel") root with
  | some li => .ok (some (joinSep ", " ((anchorsOf li).map (getTextS ""))))
  | none =>
      match get_links_after_label root ["By:", "Author:"] with
      | some v =>
          if v ≠ "" then .ok (some v)
          else get_text_by_label root ["By:", "Author:"]
      | none => get_text_by_label root ["By:", "Author:"]

/-- Embedding of the narrator extraction (src/app.py lines 452-462). -/
def narratorOf (root : Html) : Except Unit (Option String) :=
  match findElemN (fun t cs => t == "li" && cs.contains "narratorLabel") root with
  | some li => .ok (some (joinSep ", " ((anchorsOf li).map (getTextS ""))))
  | none =>
      match get_links_after_label root ["Narrated by:"] with
      | some v =>
          if v ≠ "" then .ok (some v)
          else get_text_by_label root ["Narrated by:"]
      | none => get_text_by_label root ["Narrated by:"]

/-- Title extraction (src/app.py lines 388-390): text of the first `<h1>`. -/
def titleOf (root : Html) : Option String :=
  (findElemN (fun t _ => t == "h1") root).map (getTextS "")

/-- The `data` dict assembled by `fetch_metadata`; a key that is absent or set
to Python `None` is `none`. -/
structure MetaResult where
  title : Option String
  author : Option String
  narrator : Option String
  release_date : Option String
deriving DecidableEq, Repr

/-- The whole extraction part of `fetch_metadata` (after the HTTP fetch
succeeded); `.error ()` models an uncaught exception escaping the route. -/
def extractMeta (root : Html) : Except Unit MetaResult := do
  let author ← authorOf root
  let narrator ← narratorOf root
  let release ← releaseOf root
  return { title := titleOf root, author := author, narrator := narrator,
           release_date := release }

/-- Outcome of `requests.get(url, ...)` followed by redirect handling: a
network-level exception, or a final response with a status code and a parsed
body. -/
inductive FetchOutcome where
  | failure (msg : String)
  | response (status : Nat) (body : HtmlList)

/-- The value returned by the `fetch_metadata` route: `({"error": "Missing
URL"}, 400)`, `({"error": str(e)}, 500)`, or the data dict. -/
inductive FetchResult where
  | badRequest
  | fetchError (msg : String)
  | okData (r : MetaResult)
deriving DecidableEq

/-- The soup produced from a response body (`[document]` root). -/
def mkRoot (body : HtmlList) : Html :=
  .helem "[document]" [] body

/-- The `str(e)` text of the `HTTPError` raised by `resp.raise_for_status()`
(content abstracted; only its presence matters). -/
def httpErrorMsg (status : Nat) : String :=
  toString status ++ " Error"

/-- Embedding of the `fetch_metadata` route (src/app.py lines 367-495).
`resp.raise_for_status()` raises exactly for statuses in `400..599`; that
exception and any network exception are caught and returned as the structured
error value. -/
def fetch_metadata (url : Option String) (out : FetchOutcome) :
    Except Unit FetchResult :=
  match url with
  | none => .ok .badRequest
  | some u =>
      if u == "" then .ok .badRequest
      else
        match out with
        | .failure msg => .ok (.fetchError msg)
        | .response status body =>
            if 400 ≤ status && status < 600 then
              .ok (.fetchError (httpErrorMsg status))
            else (extractMeta (mkRoot body)).map .okData

/-! ## Metadata cache (spec §4.3)

Modelled from the spec: no implementation of the Metadata Cache exists under
`src/` — `src/models.py` only declares the `BookMetadata` table (lines 46-60),
and no route reads or writes it.  The definitions below follow the spec's
words for `getOrRefresh(slug, title, author?) -> MetadataRecord`. -/

/-- Modelled from the spec: a `MetadataRecord` row (`BookMetadata` columns,
src/models.py lines 46-60). -/
structure MetadataRecord where
  book_slug : String
  title : String
  author : Option String
  cover_url : Option String
  summary : Option String
  source : Option String
  updated_at : Nat
deriving DecidableEq, Repr

/-- Modelled from the spec: one Fetcher invocation either returns a (possibly
empty) pair of fields with a provenance tag, or raises. -/
inductive FetcherCall where
  | returns (cover_url summary : Option String) (source : String)
  | raises
deriving DecidableEq

/-- Result of `getOrRefresh`: the returned record, the persisted state for the
slug, and whether the Fetcher was invoked (used to state the
at-most-one-fetch guarantee). -/
structure GetOrRefreshResult where
  record : MetadataRecord
  store : Option MetadataRecord
  fetcherCalled : Bool
deriving DecidableEq

/-- Modelled from the spec: the refresh arm — invoke the Fetcher, write back
whatever fields it returned and persist unconditionally; an exception is
caught at this boundary and the pre-existing record is returned instead. -/
def refreshWith (stored : MetadataRecord) (fetch : FetcherCall) (now : Nat) :
    GetOrRefreshResult :=
  match fetch with
  | .returns c s src =>
      let r :=
        { stored with cover_url := c, summary := s, source := some src,
                      updated_at := now }
      { record := r, store := some r, fetcherCalled := true }
  | .raises => { record := stored, store := some stored, fetcherCalled := true }

/-- Modelled from the spec (§4.3): `getOrRefresh(slug, title, author)` — read
the record by slug; if it exists and has `cover_url` or `summary` populated,
return it unchanged without calling the Fetcher; otherwise create it if
absent and refresh.  `store` is the persisted state for this slug (at most
one record per slug); `fetch` is what the Fetcher would do if invoked. -/
def getOrRefresh (store : Option MetadataRecord) (slug title : String)
    (author : Option String) (fetch : FetcherCall) (now : Nat) :
    GetOrRefreshResult :=
  match store with
  | some stored =>
      if pyTruthy stored.cover_url || pyTruthy stored.summary then
        { record := stored, store := some stored, fetcherCalled := false }
      else refreshWith stored fetch now
  | none =>
      refreshWith
        { book_slug := slug, title := title, author := author,
          cover_url := none, summary := none, source := none,
          updated_at := now } fetch now

/-! ## Test fixtures used by concrete witnesses and counterexamples -/

/-- A concrete create form: title "Napoleon", rating "3". -/
def exampleForm : AudiobookForm :=
  { title := "Napoleon", author := none, narrator := none, audible_url := none,
    review_text := none, rating := some "3", listened_date := none }

/-- The row `audiobook_create` stores for `exampleForm`. -/
def exampleRow : AudiobookRow :=
  { person := "richard", title := "Napoleon", slug := "napoleon",
    author := none, narrator := none, audible_url := none, review_text := none,
    rating := some 3, listened_date := none }

/-- A concrete create form with the out-of-range rating "11". -/
def exampleForm11 : AudiobookForm :=
  { exampleForm with rating := some "11" }

/-- A populated cached metadata record (cover present). -/
def examplePopulated : MetadataRecord :=
  { book_slug := "dune", title := "Dune", author := none,
    cover_url := some "X", summary := none, source := some "openlibrary",
    updated_at := 0 }

/-- A `releaseDateLabel` list item whose date has a four-digit year. -/
def exampleReleaseLi : Html :=
  .helem "li" ["releaseDateLabel"]
    (.hcons (.htext "Release date: 05-18-2021") .hnil)

/-- A one-element body containing `exampleReleaseLi`. -/
def exampleReleaseBody : HtmlList :=
  .hcons exampleReleaseLi .hnil

/-- A `releaseDateLabel` list item whose date has a two-digit year. -/
def exampleReleaseLi2 : Html :=
  .helem "li" ["releaseDateLabel"]
    (.hcons (.htext "Release date: 05-18-21") .hnil)

/-- A one-element body containing `exampleReleaseLi2`. -/
def exampleReleaseBody2 : HtmlList :=
  .hcons exampleReleaseLi2 .hnil

/-! ## Theorems -/

/-! ### C9: identity resolution -/

/-- C9: a request naming a person whose lowercased name is not a key of
`PEOPLE` aborts with 404 (`.error ()`), and a known person never does:
`normalize_person` succeeds, returning the key and display name. -/
theorem normalize_person_404_iff_unknown :
    ∀ p : String,
      (PEOPLE.lookup (pyLower p) = none → normalize_person p = .error ()) ∧
      (∀ name, PEOPLE.lookup (pyLower p) = some name →
        normalize_person p = .ok (pyLower p, name)) := by
  intro p
  constructor
  · intro h
    simp [normalize_person, h]
  · intro name h
    simp [normalize_person, h]

/-- Closed instance of `normalize_person_404_iff_unknown`: "Stranger" is
rejected with 404, "Richard" resolves. -/
theorem normalize_person_404_iff_unknown_witness :
    normalize_person "Stranger" = .error () ∧
    normalize_person "Richard" = .ok ("richard", "Richard") := by
  constructor
  · exact (normalize_person_404_iff_unknown "Stranger").1 (by decide)
  · exact (normalize_person_404_iff_unknown "Richard").2 "Richard" (by decide)

/-! ### C10: unlock monotonicity -/

/-- The unlock route never clears the flag. -/
theorem sessionAfterUnlock_mono (uploadKey : Option String) (formKey : String)
    (s : Session) (h : s.unlocked = true) :
    (sessionAfterUnlock uploadKey formKey s).unlocked = true := by
  unfold sessionAfterUnlock unlock
  by_cases hd : uploads_disabled uploadKey = true
  · simp [hd, h]
  · by_cases he : pyEqOpt formKey uploadKey = true
    · simp [hd, he]
    · simp [hd, he, h]

/-- C10: a POST to `/unlock` with a key different from the shared secret
leaves the session unchanged, and once a session is unlocked it stays
unlocked across any later sequence of unlock attempts. -/
theorem unlock_monotone :
    ∀ (uploadKey : Option String) (formKey : String) (s : Session)
      (attempts : List String),
      (pyEqOpt formKey uploadKey = false →
        sessionAfterUnlock uploadKey formKey s = s) ∧
      (s.unlocked = true →
        (attempts.foldl (fun st k => sessionAfterUnlock uploadKey k st)
            s).unlocked = true) := by
  intro uploadKey formKey s attempts
  constructor
  · intro h
    unfold sessionAfterUnlock unlock
    by_cases hd : uploads_disabled uploadKey = true
    · simp [hd]
    · simp [hd, h]
  · intro h
    induction attempts generalizing s with
    | nil => exact h
    | cons k ks ih =>
        exact ih _ (sessionAfterUnlock_mono uploadKey k s h)

/-- Closed instance of `unlock_monotone`: a wrong key changes nothing, and an
unlocked session survives two failed attempts. -/
theorem unlock_monotone_witness :
    sessionAfterUnlock (some "secret") "wrong" ⟨true⟩ = ⟨true⟩ ∧
    ((["wrong", "nope"].foldl
        (fun st k => sessionAfterUnlock (some "secret") k st)
        ⟨true⟩).unlocked = true) := by
  constructor
  · exact (unlock_monotone (some "secret") "wrong" ⟨true⟩ []).1 (by decide)
  · exact (unlock_monotone (some "secret") "w" ⟨true⟩ ["wrong", "nope"]).2 rfl

/-! ### C1: metadata cache policy (spec-modelled) -/

/-- C1 (spec-modelled): if a stored record has `cover_url` or `summary`
populated, `getOrRefresh` returns it unchanged without invoking the Fetcher;
when no record exists or both fields are empty, the Fetcher is invoked and
whatever fields it returns (possibly empty) are persisted. -/
theorem getOrRefresh_at_most_one_fetch :
    ∀ (store : Option MetadataRecord) (slug title : String)
      (author : Option String) (fetch : FetcherCall) (now : Nat),
      (∀ stored, store = some stored →
        (pyTruthy stored.cover_url || pyTruthy stored.summary) = true →
        getOrRefresh store slug title author fetch now =
          { record := stored, store := some stored, fetcherCalled := false }) ∧
      ((store = none ∨ ∃ stored, store = some stored ∧
          pyTruthy stored.cover_url = false ∧ pyTruthy stored.summary = false) →
        (getOrRefresh store slug title author fetch now).fetcherCalled = true ∧
        ∀ c s src, fetch = .returns c s src →
          (getOrRefresh store slug title author fetch now).record.cover_url = c ∧
          (getOrRefresh store slug title author fetch now).record.summary = s ∧
          (getOrRefresh store slug title author fetch now).store =
            some (getOrRefresh store slug title author fetch now).record) := by
  intro store slug title author fetch now
  constructor
  · intro stored hs hpop
    subst hs
    simp [getOrRefresh, hpop]
  · intro hempty
    have hform :
        ∀ stored, (getOrRefresh (some stored) slug title author fetch now =
            refreshWith stored fetch now) ∨
          (pyTruthy stored.cover_url || pyTruthy stored.summary) = true := by
      intro stored
      by_cases hp : (pyTruthy stored.cover_url || pyTruthy stored.summary) = true
      · exact Or.inr hp
      · exact Or.inl (by simp [getOrRefresh, hp])
    rcases hempty with hnone | ⟨stored, hs, hc, hsum⟩
    · subst hnone
      cases fetch with
      | returns c s src => exact ⟨rfl, by intro c' s' src' h; cases h; simp [getOrRefresh, refreshWith]⟩
      | raises => exact ⟨rfl, by intro c' s' src' h; cases h⟩
    · subst hs
      have hne : (pyTruthy stored.cover_url || pyTruthy stored.summary) = false := by
        simp [hc, hsum]
      cases fetch with
      | returns c s src =>
          refine ⟨?_, ?_⟩
          · simp [getOrRefresh, hne, refreshWith]
          · intro c' s' src' h
            cases h
            simp [getOrRefresh, hne, refreshWith]
      | raises =>
          refine ⟨?_, ?_⟩
          · simp [getOrRefresh, hne, refreshWith]
          · intro c' s' src' h
            cases h

/-- Closed instance of `getOrRefresh_at_most_one_fetch`: a populated record is
returned unchanged with no fetch; with no record the Fetcher runs and its
fields are persisted. -/
theorem getOrRefresh_at_most_one_fetch_witness :
    getOrRefresh (some examplePopulated) "dune" "Dune" none
        (.returns (some "C") (some "S") "openlibrary") 1 =
      { record := examplePopulated, store := some examplePopulated,
        fetcherCalled := false } ∧
    (getOrRefresh none "dune" "Dune" none
        (.returns (some "C") (some "S") "openlibrary") 1).fetcherCalled = true := by
  constructor
  · exact (getOrRefresh_at_most_one_fetch (some examplePopulated) "dune" "Dune"
      none (.returns (some "C") (some "S") "openlibrary") 1).1
      examplePopulated rfl (by decide)
  · exact ((getOrRefresh_at_most_one_fetch none "dune" "Dune" none
      (.returns (some "C") (some "S") "openlibrary") 1).2 (Or.inl rfl)).1

/-! ### C3 / C4: audiobook create and save -/

/-- Shape of a successfully created row: the fields `audiobook_create`
assigns. -/
theorem audiobookCreate_ok_shape {p : String} {f : AudiobookForm}
    {row : AudiobookRow} (h : audiobookCreate p f = .ok row) :
    row.person = p ∧ row.title = pystrip f.title ∧
    row.slug = slugify (pystrip f.title) ∧
    row.rating = ratingUpdate none f.rating := by
  unfold audiobookCreate at h
  by_cases ht : pyTruthy f.listened_date = true
  · simp only [ht, if_true] at h
    cases hld : f.listened_date with
    | none => simp only [hld] at h; cases h; exact ⟨rfl, rfl, rfl, rfl⟩
    | some dstr =>
        simp only [hld] at h
        cases hpd : pyDateFromIso dstr with
        | none => simp only [hpd] at h; cases h
        | some d => simp only [hpd] at h; cases h; exact ⟨rfl, rfl, rfl, rfl⟩
  · simp only [Bool.not_eq_true] at ht
    simp only [ht, Bool.false_eq_true, if_false] at h
    cases h; exact ⟨rfl, rfl, rfl, rfl⟩

/-- Shape of a successfully saved row: the rating field `audiobook_save`
assigns. -/
theorem audiobookSaveRow_ok_rating {oldRow : AudiobookRow} {f : AudiobookForm}
    {row : AudiobookRow} (h : audiobookSaveRow oldRow f = .ok row) :
    row.rating = ratingUpdate oldRow.rating f.rating := by
  unfold audiobookSaveRow at h
  by_cases ht : pyTruthy f.listened_date = true
  · simp only [ht, if_true] at h
    cases hld : f.listened_date with
    | none => simp only [hld] at h; cases h; rfl
    | some dstr =>
        simp only [hld] at h
        cases hpd : pyDateFromIso dstr with
        | none => simp only [hpd] at h; cases h
        | some d => simp only [hpd] at h; cases h; rfl
  · simp only [Bool.not_eq_true] at ht
    simp only [ht, Bool.false_eq_true, if_false] at h
    cases h; rfl

/-- C3 counterexample: submitting the out-of-range rating "11" (range is
1-10) to `audiobook_create` stores `11` — it is not discarded. -/
theorem audiobook_out_of_range_rating_stored :
    (audiobookCreate "richard" exampleForm11).map (fun r => r.rating) =
      .ok (some 11) ∧ ¬ (1 ≤ 11 ∧ (11 : Nat) ≤ 10) := by
  exact ⟨rfl, by decide⟩

/-- C3 (amended): a rating submitted as a nonempty all-digit string is stored
as its integer value with no range check (so out-of-range values such as 11
are stored, not discarded); a missing, empty or non-digit rating is
discarded silently — left absent by `audiobook_create` and unchanged by
`audiobook_save`.  In-range digit ratings are stored as given. -/
theorem rating_stored_without_bounds_check :
    ∀ (r : String) (old : Option Nat) (p : String) (f : AudiobookForm)
      (oldRow row : AudiobookRow),
      (pyIsdigit r = true → ratingUpdate old (some r) = some (pyInt r)) ∧
      (pyIsdigit r = false → ratingUpdate old (some r) = old) ∧
      (ratingUpdate old none = old) ∧
      (audiobookCreate p f = .ok row →
        row.rating = ratingUpdate none f.rating) ∧
      (audiobookSaveRow oldRow f = .ok row →
        row.rating = ratingUpdate oldRow.rating f.rating) := by
  intro r old p f oldRow row
  refine ⟨?_, ?_, rfl, ?_, ?_⟩
  · intro h
    have hne : r ≠ "" := by
      intro he
      subst he
      simp [pyIsdigit] at h
    simp [ratingUpdate, h, hne]
  · intro h
    simp [ratingUpdate, h]
  · intro h
    exact (audiobookCreate_ok_shape h).2.2.2
  · intro h
    exact audiobookSaveRow_ok_rating h

/-- Closed instance of `rating_stored_without_bounds_check`: "11" is stored
as 11, a non-digit rating keeps the old value, and the row created from
`exampleForm` carries `ratingUpdate none (some "3")`. -/
theorem rating_stored_without_bounds_check_witness :
    ratingUpdate none (some "11") = some 11 ∧
    ratingUpdate (some 3) (some "x") = some 3 ∧
    exampleRow.rating = ratingUpdate none exampleForm.rating := by
  refine ⟨?_, ?_, ?_⟩
  · exact (rating_stored_without_bounds_check "11" none "richard" exampleForm
      exampleRow exampleRow).1 (by decide)
  · exact (rating_stored_without_bounds_check "x" (some 3) "richard"
      exampleForm exampleRow exampleRow).2.1 (by decide)
  · exact (rating_stored_without_bounds_check "3" none "richard" exampleForm
      exampleRow exampleRow).2.2.2.1 rfl

/-- C4 counterexample: creating twice with the same title for the same person
leaves two stored records with the key `("richard", "napoleon")` — not one. -/
theorem audiobook_create_no_upsert :
    countKey
      (audiobookCreateOp (audiobookCreateOp [] "richard" exampleForm)
        "richard" exampleForm)
      "richard" "napoleon" = 2 := by
  rfl

/-- C4 (amended): `audiobook_create` is a plain insert, not an upsert: each
successful create appends one row, so saving twice for the same
`(person, slug)` leaves two records for that key.  (The declared uniqueness
constraint on `(person, book_slug)` lives on the separate `reviews` table,
which no route writes.) -/
theorem audiobook_create_appends :
    ∀ (db : List AudiobookRow) (p : String) (f : AudiobookForm)
      (row : AudiobookRow),
      audiobookCreate p f = .ok row →
      audiobookCreateOp db p f = db ++ [row] ∧
      countKey (audiobookCreateOp (audiobookCreateOp db p f) p f) p row.slug =
        countKey db p row.slug + 2 := by
  intro db p f row h
  have h1 : audiobookCreateOp db p f = db ++ [row] := by
    simp [audiobookCreateOp, h]
  have h2 : audiobookCreateOp (db ++ [row]) p f = db ++ [row] ++ [row] := by
    simp [audiobookCreateOp, h]
  have hshape := audiobookCreate_ok_shape h
  refine ⟨h1, ?_⟩
  rw [h1, h2]
  simp [countKey, List.filter_append, hshape.1]

/-- Closed instance of `audiobook_create_appends`: two creates from the empty
table yield two rows for the key. -/
theorem audiobook_create_appends_witness :
    countKey
      (audiobookCreateOp (audiobookCreateOp [] "richard" exampleForm)
        "richard" exampleForm)
      "richard" exampleRow.slug = countKey [] "richard" exampleRow.slug + 2 :=
  (audiobook_create_appends [] "richard" exampleForm exampleRow rfl).2

/-! ### C2 / C8: the slug normalizer -/

/-- `dropWhile` keeps a list none of whose elements satisfy the predicate. -/
theorem dropWhile_eq_self_of_all {p : α → Bool} {l : List α}
    (h : ∀ x ∈ l, p x = false) : l.dropWhile p = l := by
  cases l with
  | nil => rfl
  | cons x xs => simp [List.dropWhile_cons, h x (List.mem_cons_self x xs)]

/-- Right-trimming distributes over a left block free of trimmed
characters. -/
theorem rdropC_append_of_all {p : Char → Bool} {run X : List Char}
    (hall : ∀ x ∈ run, p x = false) :
    rdropC p (run ++ X) = run ++ rdropC p X := by
  unfold rdropC
  rw [List.reverse_append, List.dropWhile_append]
  by_cases hE : (X.reverse.dropWhile p).isEmpty = true
  · rw [if_pos hE]
    rw [List.isEmpty_iff] at hE
    rw [hE]
    rw [dropWhile_eq_self_of_all (fun x hx => hall x (List.mem_reverse.mp hx))]
    simp
  · rw [if_neg hE]
    simp

/-- Right-trimming a `cons` whose tail has an untrimmed element keeps the
head. -/
theorem rdropC_cons_of_mem {p : Char → Bool} {a : Char} {Z : List Char}
    (hx : ∃ x ∈ Z, p x = false) :
    rdropC p (a :: Z) = a :: rdropC p Z := by
  unfold rdropC
  rw [List.reverse_cons, List.dropWhile_append]
  have hne : (Z.reverse.dropWhile p).isEmpty = false := by
    rcases hx with ⟨x, hmem, hpx⟩
    rw [Bool.eq_false_iff]
    intro hE
    rw [List.isEmpty_iff, List.dropWhile_eq_nil_iff] at hE
    have := hE x (List.mem_reverse.mpr hmem)
    rw [hpx] at this
    exact Bool.false_ne_true this
  rw [hne]
  simp

/-- Inside a run, `subDashAux true` just skips the rest of the run. -/
theorem subDashAux_true_eq (cs : List Char) :
    subDashAux true cs =
      subDashAux false (cs.dropWhile (fun d => !isLowerAlnum d)) := by
  induction cs with
  | nil => rfl
  | cons d ds ih =>
      cases hd : isLowerAlnum d with
      | true => simp [subDashAux, hd, List.dropWhile_cons]
      | false => simp [subDashAux, hd, List.dropWhile_cons, ih]

/-- With an empty accumulator, `runsAux` skips a leading non-alnum block. -/
theorem runsAux_nil_dropWhile (cs : List Char) :
    runsAux [] cs = runsAux [] (cs.dropWhile (fun d => !isLowerAlnum d)) := by
  induction cs with
  | nil => rfl
  | cons d ds ih =>
      cases hd : isLowerAlnum d with
      | true => simp [runsAux, hd, List.dropWhile_cons]
      | false => simp [runsAux, hd, List.dropWhile_cons, ih]

/-- `re.sub` leaves a leading alnum block untouched. -/
theorem subDashAux_chunk {run rest : List Char}
    (hall : ∀ x ∈ run, isLowerAlnum x = true) :
    subDashAux false (run ++ rest) = run ++ subDashAux false rest := by
  induction run with
  | nil => rfl
  | cons a more ih =>
      have ha := hall a (List.mem_cons_self a more)
      simp [subDashAux, ha,
        ih (fun x hx => hall x (List.mem_cons_of_mem a hx))]

/-- `runsAux` accumulates a leading alnum block. -/
theorem runsAux_chunk {run : List Char} :
    ∀ (cur rest : List Char), (∀ x ∈ run, isLowerAlnum x = true) →
      runsAux cur (run ++ rest) = runsAux (run.reverse ++ cur) rest := by
  induction run with
  | nil => intro cur rest _; rfl
  | cons a more ih =>
      intro cur rest hall
      have ha := hall a (List.mem_cons_self a more)
      have h2 := ih (a :: cur) rest (fun x hx => hall x (List.mem_cons_of_mem a hx))
      calc runsAux cur ((a :: more) ++ rest)
          = runsAux (a :: cur) (more ++ rest) := by
            simp only [List.cons_append, runsAux, ha, if_true]
            rfl
        _ = runsAux (more.reverse ++ a :: cur) rest := h2
        _ = runsAux ((a :: more).reverse ++ cur) rest := by
            simp [List.reverse_cons, List.append_assoc]

/-- `runsAux` with a nonempty accumulator produces at least one run. -/
theorem runsAux_ne_nil : ∀ (l cur : List Char), cur ≠ [] → runsAux cur l ≠ [] := by
  intro l
  induction l with
  | nil =>
      intro cur h
      have : cur.isEmpty = false := by simpa [List.isEmpty_eq_false] using h
      simp [runsAux, this]
  | cons c cs ih =>
      intro cur h
      cases hc : isLowerAlnum c with
      | true => simpa [runsAux, hc] using ih (c :: cur) (List.cons_ne_nil c cur)
      | false =>
          have : cur.isEmpty = false := by simpa [List.isEmpty_eq_false] using h
          simp [runsAux, hc, this]

/-- Unfolding of `List.intercalate` on a `cons`, with a single-dash
separator. -/
theorem intercalate_dash_cons (x : List Char) (xs : List (List Char)) :
    List.intercalate ['-'] (x :: xs) =
      x ++ (if xs.isEmpty then [] else '-' :: List.intercalate ['-'] xs) := by
  cases xs with
  | nil => simp [List.intercalate, List.intersperse]
  | cons y ys => simp [List.intercalate, List.intersperse]

/-- The head of a nonempty `dropWhile` result fails the predicate. -/
theorem head_dropWhile_false {p : α → Bool} :
    ∀ {l : List α} {d : α} {ds : List α}, l.dropWhile p = d :: ds → p d = false := by
  intro l
  induction l with
  | nil => intro d ds h; simp at h
  | cons x xs ih =>
      intro d ds h
      rw [List.dropWhile_cons] at h
      by_cases hx : p x = true
      · rw [if_pos hx] at h; exact ih h
      · rw [if_neg hx] at h
        cases h
        simpa using hx

/-- A kept character of `slugify` is never a dash. -/
theorem lowerAlnum_ne_dash {x : Char} (h : isLowerAlnum x = true) :
    (x == '-') = false := by
  rw [beq_eq_false_iff_ne]
  intro he
  subst he
  exact absurd h (by decide)

/-- Key equivalence: the source pipeline (`re.sub` then `strip("-")`) equals
joining the maximal alnum runs with single dashes. -/
theorem stripDashes_subDashAux :
    ∀ (n : Nat) (l : List Char), l.length ≤ n →
      stripDashes (subDashAux false l) =
        List.intercalate ['-'] (runsAux [] l) := by
  intro n
  induction n with
  | zero =>
      intro l hl
      have : l = [] := List.eq_nil_of_length_eq_zero (Nat.le_zero.mp hl)
      subst this
      rfl
  | succ n ih =>
      intro l hl
      cases l with
      | nil => rfl
      | cons c cs =>
          have hcs : cs.length ≤ n := Nat.le_of_succ_le_succ hl
          cases hc : isLowerAlnum c with
          | false =>
              have hlen' : (cs.dropWhile (fun d => !isLowerAlnum d)).length ≤ n :=
                le_trans (List.dropWhile_sublist _).length_le hcs
              have e1 : subDashAux false (c :: cs) =
                  '-' :: subDashAux false (cs.dropWhile (fun d => !isLowerAlnum d)) := by
                simp [subDashAux, hc, subDashAux_true_eq]
              have e2 : stripDashes ('-' ::
                  subDashAux false (cs.dropWhile (fun d => !isLowerAlnum d))) =
                  stripDashes (subDashAux false (cs.dropWhile (fun d => !isLowerAlnum d))) := by
                simp [stripDashes, dropEnds, List.dropWhile_cons]
              rw [e1, e2, ih _ hlen']
              have e3 : runsAux [] (c :: cs) = runsAux [] cs := by
                simp [runsAux, hc]
              rw [e3, runsAux_nil_dropWhile cs]
          | true =>
              have hsplit : c :: cs =
                  (c :: cs.takeWhile isLowerAlnum) ++ cs.dropWhile isLowerAlnum := by
                simp [List.takeWhile_append_dropWhile]
              have hrunall : ∀ x ∈ c :: cs.takeWhile isLowerAlnum,
                  isLowerAlnum x = true := by
                intro x hx
                rcases List.mem_cons.mp hx with h | h
                · subst h; exact hc
                · exact List.mem_takeWhile_imp h
              have hrun_nodash : ∀ x ∈ c :: cs.takeWhile isLowerAlnum,
                  (x == '-') = false :=
                fun x hx => lowerAlnum_ne_dash (hrunall x hx)
              rw [hsplit, subDashAux_chunk hrunall]
              have hstrip : ∀ X : List Char,
                  stripDashes ((c :: cs.takeWhile isLowerAlnum) ++ X) =
                    (c :: cs.takeWhile isLowerAlnum) ++ rdropC (· == '-') X := by
                intro X
                unfold stripDashes dropEnds
                rw [List.cons_append, List.dropWhile_cons]
                rw [if_neg (by simp [hrun_nodash c (List.mem_cons_self _ _)])]
                rw [← List.cons_append]
                exact rdropC_append_of_all hrun_nodash
              rw [hstrip]
              rw [runsAux_chunk [] (cs.dropWhile isLowerAlnum) hrunall,
                List.append_nil]
              cases hrest : cs.dropWhile isLowerAlnum with
              | nil =>
                  simp only [subDashAux]
                  have : rdropC (· == '-') ([] : List Char) = [] := rfl
                  rw [this]
                  have hner : (c :: cs.takeWhile isLowerAlnum).reverse.isEmpty = false := by
                    simp
                  simp only [runsAux, hner, Bool.false_eq_true, if_false,
                    List.reverse_reverse]
                  rw [intercalate_dash_cons]
                  simp
              | cons d ds =>
                  have hd : isLowerAlnum d = false := head_dropWhile_false hrest
                  have hds_len : ds.length ≤ n := by
                    have h1 : (cs.dropWhile isLowerAlnum).length ≤ cs.length :=
                      (List.dropWhile_sublist _).length_le
                    rw [hrest] at h1
                    simp only [List.length_cons] at h1
                    omega
                  have e4 : subDashAux false (d :: ds) =
                      '-' :: subDashAux false
                        (ds.dropWhile (fun x => !isLowerAlnum x)) := by
                    simp [subDashAux, hd, subDashAux_true_eq]
                  have hner : (c :: cs.takeWhile isLowerAlnum).reverse.isEmpty
                      = false := by simp
                  have e5 : runsAux (c :: cs.takeWhile isLowerAlnum).reverse
                      (d :: ds) =
                      (c :: cs.takeWhile isLowerAlnum) :: runsAux [] ds := by
                    simp only [runsAux, hd, Bool.false_eq_true, if_false, hner,
                      List.reverse_reverse]
                  rw [e4, e5, runsAux_nil_dropWhile ds]
                  cases hl2 : ds.dropWhile (fun x => !isLowerAlnum x) with
                  | nil =>
                      have : rdropC (· == '-') ('-' :: subDashAux false []) = [] := rfl
                      rw [this, intercalate_dash_cons]
                      simp [runsAux]
                  | cons e es =>
                      have he : isLowerAlnum e = true := by
                        have := head_dropWhile_false hl2
                        simpa using this
                      have e7 : subDashAux false (e :: es) =
                          e :: subDashAux false es := by
                        simp [subDashAux, he]
                      have e8 : rdropC (· == '-')
                          ('-' :: subDashAux false (e :: es)) =
                          '-' :: rdropC (· == '-') (subDashAux false (e :: es)) := by
                        refine rdropC_cons_of_mem ⟨e, ?_, lowerAlnum_ne_dash he⟩
                        rw [e7]
                        exact List.mem_cons_self e _
                      have e9 : rdropC (· == '-') (subDashAux false (e :: es)) =
                          stripDashes (subDashAux false (e :: es)) := by
                        unfold stripDashes dropEnds
                        rw [e7, List.dropWhile_cons,
                          if_neg (by simp [lowerAlnum_ne_dash he])]
                      have hlen2 : (e :: es).length ≤ n := by
                        rw [← hl2]
                        exact le_trans (List.dropWhile_sublist _).length_le hds_len
                      have hne9 : runsAux [] (e :: es) ≠ [] := by
                        have : runsAux [] (e :: es) = runsAux [e] es := by
                          simp [runsAux, he]
                        rw [this]
                        exact runsAux_ne_nil es [e] (List.cons_ne_nil e [])
                      rw [e8, e9, ih _ hlen2, intercalate_dash_cons]
                      rw [if_neg (by simpa [List.isEmpty_eq_false] using hne9)]

/-- `slugify` computes the joined maximal alnum runs of the lowercased
input. -/
theorem slugify_canonical (s : String) : slugify s = slugifySpec s := by
  unfold slugify slugifySpec alnumRuns
  exact congrArg String.mk
    (stripDashes_subDashAux (pyLower s).data.length (pyLower s).data le_rfl)

/-- C2: `slugify` lowercases its input, replaces every maximal run of
characters outside `[a-z0-9]` by a single dash and strips dashes at both ends
(equivalently: joins the maximal `[a-z0-9]` runs of the lowercased input with
single dashes); in particular `slugify "The Chosen!" = "the-chosen"` and
`slugify "  A & B " = "a-b"`. -/
theorem slugify_matches_spec :
    (∀ s : String, slugify s = slugifySpec s) ∧
    slugify "The Chosen!" = "the-chosen" ∧ slugify "  A & B " = "a-b" :=
  ⟨slugify_canonical, by decide, by decide⟩

/-- `Char.toLower` fixes slug characters (lowercase alnum and dash). -/
theorem toLower_fix {c : Char} (h : isLowerAlnum c = true ∨ c = '-') :
    c.toLower = c := by
  rcases h with h | h
  · simp only [isLowerAlnum, Bool.or_eq_true, Bool.and_eq_true,
      decide_eq_true_eq] at h
    unfold Char.toLower
    rw [if_neg]
    omega
  · subst h
    decide

/-- Every run produced by `runsAux` is nonempty and all-alnum (given an
all-alnum accumulator). -/
theorem runsAux_runs_alnum :
    ∀ (l cur : List Char), (∀ x ∈ cur, isLowerAlnum x = true) →
      ∀ r ∈ runsAux cur l, r ≠ [] ∧ ∀ x ∈ r, isLowerAlnum x = true := by
  intro l
  induction l with
  | nil =>
      intro cur hcur r hr
      by_cases hc : cur.isEmpty = true
      · simp [runsAux, hc] at hr
      · simp only [runsAux, hc, if_false, Bool.false_eq_true,
          List.mem_singleton] at hr
        subst hr
        constructor
        · simp [List.isEmpty_eq_false] at hc
          simpa using hc
        · intro x hx
          exact hcur x (List.mem_reverse.mp hx)
  | cons c cs ih =>
      intro cur hcur r hr
      cases hc : isLowerAlnum c with
      | true =>
          rw [runsAux, if_pos hc] at hr
          refine ih (c :: cur) ?_ r hr
          intro x hx
          rcases List.mem_cons.mp hx with h | h
          · subst h; exact hc
          · exact hcur x h
      | false =>
          rw [runsAux, if_neg (by simp [hc])] at hr
          by_cases hcc : cur.isEmpty = true
          · rw [if_pos hcc] at hr
            exact ih [] (by simp) r hr
          · rw [if_neg hcc] at hr
            rcases List.mem_cons.mp hr with h | h
            · subst h
              constructor
              · simp [List.isEmpty_eq_false] at hcc
                simpa using hcc
              · intro x hx
                exact hcur x (List.mem_reverse.mp hx)
            · exact ih [] (by simp) r h

/-- Characters of a dash-joined list come from the parts or are dashes. -/
theorem mem_intercalate_dash {x : Char} :
    ∀ {parts : List (List Char)}, x ∈ List.intercalate ['-'] parts →
      x = '-' ∨ ∃ r ∈ parts, x ∈ r := by
  intro parts
  induction parts with
  | nil => intro h; simp [List.intercalate] at h
  | cons r rs ih =>
      intro h
      rw [intercalate_dash_cons] at h
      rcases List.mem_append.mp h with h | h
      · exact Or.inr ⟨r, List.mem_cons_self r rs, h⟩
      · by_cases hrs : rs.isEmpty = true
        · rw [if_pos hrs] at h
          simp at h
        · rw [if_neg hrs] at h
          rcases List.mem_cons.mp h with h | h
          · exact Or.inl h
          · rcases ih h with h | ⟨r', hr', hx⟩
            · exact Or.inl h
            · exact Or.inr ⟨r', List.mem_cons_of_mem r hr', hx⟩

/-- Splitting a dash-joined list of nonempty all-alnum runs recovers the
runs. -/
theorem alnumRuns_intercalate :
    ∀ (parts : List (List Char)),
      (∀ r ∈ parts, r ≠ [] ∧ ∀ x ∈ r, isLowerAlnum x = true) →
      alnumRuns (List.intercalate ['-'] parts) = parts := by
  intro parts
  induction parts with
  | nil => intro _; rfl
  | cons r rs ih =>
      intro h
      have hr := h r (List.mem_cons_self r rs)
      rw [intercalate_dash_cons]
      unfold alnumRuns
      rw [runsAux_chunk [] _ hr.2, List.append_nil]
      by_cases hrs : rs.isEmpty = true
      · rw [if_pos hrs]
        rw [List.isEmpty_iff] at hrs
        subst hrs
        have hne : r.reverse.isEmpty = false := by
          simp [List.isEmpty_eq_false, hr.1]
        simp only [runsAux, hne, Bool.false_eq_true, if_false,
          List.reverse_reverse]
      · rw [if_neg hrs]
        have hdash : isLowerAlnum '-' = false := by decide
        have hne : r.reverse.isEmpty = false := by
          simp [List.isEmpty_eq_false, hr.1]
        simp only [runsAux, hdash, Bool.false_eq_true, if_false, hne,
          List.reverse_reverse]
        have := ih (fun r' hr' => h r' (List.mem_cons_of_mem r hr'))
        unfold alnumRuns at this
        rw [this]

/-- Mapping a function that fixes every member is the identity. -/
theorem map_id_of_mem {f : α → α} :
    ∀ {l : List α}, (∀ x ∈ l, f x = x) → l.map f = l := by
  intro l
  induction l with
  | nil => intro _; rfl
  | cons x xs ih =>
      intro h
      rw [List.map_cons, h x (List.mem_cons_self x xs),
        ih (fun y hy => h y (List.mem_cons_of_mem x hy))]

/-- C8: `slugify` is a pure total function of its input (it is a Lean `def`
with no side conditions), and it is idempotent: applying it twice gives the
same slug as applying it once. -/
theorem slugify_idempotent : ∀ x : String, slugify (slugify x) = slugify x := by
  intro x
  have hparts : ∀ r ∈ alnumRuns (pyLower x).data,
      r ≠ [] ∧ ∀ c ∈ r, isLowerAlnum c = true :=
    runsAux_runs_alnum (pyLower x).data [] (by simp)
  have h1 : slugify x =
      ⟨List.intercalate ['-'] (alnumRuns (pyLower x).data)⟩ :=
    slugify_canonical x
  have hlower : pyLower (slugify x) = slugify x := by
    rw [h1]
    unfold pyLower
    refine congrArg String.mk (map_id_of_mem ?_)
    intro c hc
    rcases mem_intercalate_dash hc with h | ⟨r, hr, hcr⟩
    · exact toLower_fix (Or.inr h)
    · exact toLower_fix (Or.inl ((hparts r hr).2 c hcr))
  calc slugify (slugify x) = slugifySpec (slugify x) :=
        slugify_canonical (slugify x)
    _ = ⟨List.intercalate ['-'] (alnumRuns (pyLower (slugify x)).data)⟩ := rfl
    _ = ⟨List.intercalate ['-'] (alnumRuns (slugify x).data)⟩ := by rw [hlower]
    _ = ⟨List.intercalate ['-']
          (alnumRuns (List.intercalate ['-'] (alnumRuns (pyLower x).data)))⟩ := by
        rw [h1]
    _ = ⟨List.intercalate ['-'] (alnumRuns (pyLower x).data)⟩ := by
        rw [alnumRuns_intercalate _ hparts]
    _ = slugify x := h1.symm

/-! ### C5 / C6 / C7: the metadata scraper -/

mutual

/-- A text occurrence's string is among the texts of the node and of every
recorded ancestor. -/
theorem occsN_texts : ∀ (node : Html) (s : String) (anc : List Html),
    (s, anc) ∈ occsN node → s ∈ textsN node ∧ ∀ a ∈ anc, s ∈ textsN a
  | .htext t, s, anc, h => by
      simp only [occsN, List.mem_singleton, Prod.mk.injEq] at h
      obtain ⟨hs, hanc⟩ := h
      subst hs
      subst hanc
      exact ⟨by simp [textsN], by intro a ha; simp at ha⟩
  | .helem t c ch, s, anc, h => by
      simp only [occsN, List.mem_map] at h
      obtain ⟨o, ho, heq⟩ := h
      injection heq with hs hanc
      subst hs
      subst hanc
      have hL := occsL_texts ch o.1 o.2 (by simpa using ho)
      refine ⟨by simpa [textsN] using hL.1, ?_⟩
      intro a ha
      rcases List.mem_append.mp ha with ha | ha
      · exact hL.2 a ha
      · rw [List.mem_singleton] at ha
        subst ha
        simpa [textsN] using hL.1

/-- List version of `occsN_texts`. -/
theorem occsL_texts : ∀ (lst : HtmlList) (s : String) (anc : List Html),
    (s, anc) ∈ occsL lst → s ∈ textsL lst ∧ ∀ a ∈ anc, s ∈ textsN a
  | .hnil, s, anc, h => by simp [occsL] at h
  | .hcons n ns, s, anc, h => by
      rw [occsL] at h
      rcases List.mem_append.mp h with h | h
      · have hN := occsN_texts n s anc h
        exact ⟨by rw [textsL]; exact List.mem_append.mpr (Or.inl hN.1), hN.2⟩
      · have hL := occsL_texts ns s anc h
        exact ⟨by rw [textsL]; exact List.mem_append.mpr (Or.inr hL.1), hL.2⟩

end

/-- What a successful `findOccAux` returns: a member occurrence matching the
predicate. -/
theorem findOccAux_mem {p : String → Bool} :
    ∀ {l : List (String × List Html)} {i j : Nat} {s : String}
      {anc : List Html},
      findOccAux p i l = some (j, s, anc) → (s, anc) ∈ l ∧ p s = true := by
  intro l
  induction l with
  | nil => intro i j s anc h; simp [findOccAux] at h
  | cons o os ih =>
      intro i j s anc h
      rw [findOccAux] at h
      by_cases hp : p o.1 = true
      · rw [if_pos hp] at h
        injection h with h2
        injection h2 with h3 h4
        injection h4 with h5 h6
        subst h5
        subst h6
        exact ⟨by simp, hp⟩
      · rw [if_neg hp] at h
        obtain ⟨hm, hp2⟩ := ih h
        exact ⟨List.mem_cons_of_mem o hm, hp2⟩

/-- A character of a prefix is a character of the whole. -/
theorem mem_of_isPrefixC {c : Char} :
    ∀ {nd hay : List Char}, isPrefixC nd hay = true → c ∈ nd → c ∈ hay := by
  intro nd
  induction nd with
  | nil => intro hay h hc; simp at hc
  | cons a as ih =>
      intro hay h hc
      cases hay with
      | nil => simp [isPrefixC] at h
      | cons b bs =>
          simp only [isPrefixC, Bool.and_eq_true, beq_iff_eq] at h
          rcases List.mem_cons.mp hc with hc | hc
          · subst hc; rw [h.1]; exact List.mem_cons_self b bs
          · exact List.mem_cons_of_mem b (ih h.2 hc)

/-- A character of a substring is a character of the whole. -/
theorem mem_of_containsSub {c : Char} :
    ∀ {hay nd : List Char}, containsSub nd hay = true → c ∈ nd → c ∈ hay := by
  intro hay
  induction hay with
  | nil =>
      intro nd h hc
      rw [containsSub] at h
      cases nd with
      | nil => simp at hc
      | cons a as => simp [isPrefixC] at h
  | cons x xs ih =>
      intro nd h hc
      rw [containsSub] at h
      simp only [Bool.or_eq_true] at h
      rcases h with h | h
      · exact mem_of_isPrefixC h hc
      · exact List.mem_cons_of_mem x (ih h hc)

/-- `dropWhile` keeps any member that fails the predicate. -/
theorem mem_dropWhile_of_not {p : α → Bool} {c : α} :
    ∀ {l : List α}, c ∈ l → p c = false → c ∈ l.dropWhile p := by
  intro l
  induction l with
  | nil => intro h _; simp at h
  | cons x xs ih =>
      intro h hc
      rw [List.dropWhile_cons]
      by_cases hx : p x = true
      · rw [if_pos hx]
        rcases List.mem_cons.mp h with h | h
        · subst h; rw [hc] at hx; exact absurd hx (by simp)
        · exact ih h hc
      · rw [if_neg hx]; exact h

/-- Right-trimming keeps any member that fails the predicate. -/
theorem mem_rdropC_of_not {p : Char → Bool} {c : Char} {l : List Char}
    (h : c ∈ l) (hc : p c = false) : c ∈ rdropC p l := by
  unfold rdropC
  rw [List.mem_reverse]
  exact mem_dropWhile_of_not (List.mem_reverse.mpr h) hc

/-- Stripping whitespace keeps a colon. -/
theorem mem_pystrip_colon {s : String} (h : ':' ∈ s.data) :
    ':' ∈ (pystrip s).data := by
  show ':' ∈ rdropC Char.isWhitespace (s.data.dropWhile Char.isWhitespace)
  exact mem_rdropC_of_not (mem_dropWhile_of_not h (by decide)) (by decide)

/-- A character of a part is a character of the joined string. -/
theorem mem_joinSep {c : Char} {sep : String} :
    ∀ {parts : List String} {q : String}, q ∈ parts → c ∈ q.data →
      c ∈ (joinSep sep parts).data := by
  intro parts
  induction parts with
  | nil => intro q h _; simp at h
  | cons x xs ih =>
      intro q h hc
      cases xs with
      | nil =>
          rw [List.mem_singleton] at h
          subst h
          simpa [joinSep] using hc
      | cons y ys =>
          show c ∈ (x ++ sep ++ joinSep sep (y :: ys)).data
          simp only [String.data_append, List.mem_append]
          rcases List.mem_cons.mp h with h | h
          · subst h; exact Or.inl (Or.inl hc)
          · exact Or.inr (ih h hc)

/-- A colon in some descendant string survives into `get_text(sep,
strip=True)`. -/
theorem mem_getTextS_colon {a : Html} {s : String} (hmem : s ∈ textsN a)
    (hc : ':' ∈ (pystrip s).data) (sep : String) :
    ':' ∈ (getTextS sep a).data := by
  unfold getTextS
  have hne : pystrip s ≠ "" := by
    intro he
    rw [he] at hc
    simp at hc
  have h1 : pystrip s ∈ (textsN a).map pystrip :=
    List.mem_map_of_mem pystrip hmem
  have h2 : pystrip s ∈ ((textsN a).map pystrip).filter (fun t => t ≠ "") := by
    rw [List.mem_filter]
    exact ⟨h1, by simp [hne]⟩
  exact mem_joinSep h2 hc

/-- When the separator occurs, `split(sep, 1)` returns exactly two parts. -/
theorem splitOnce_of_mem {sep : Char} :
    ∀ {l : List Char}, sep ∈ l → ∃ a b, splitOnce sep l = [a, b] := by
  intro l
  induction l with
  | nil => intro h; simp at h
  | cons x xs ih =>
      intro h
      rw [splitOnce]
      by_cases hx : (x == sep) = true
      · rw [if_pos hx]; exact ⟨[], xs, rfl⟩
      · rw [if_neg hx]
        have hmem : sep ∈ xs := by
          rcases List.mem_cons.mp h with h | h
          · exact absurd (by rw [h]; exact beq_self_eq_true x) hx
          · exact h
        obtain ⟨a, b, hab⟩ := ih hmem
        rw [hab]
        exact ⟨x :: a, b, rfl⟩

/-- `containsChar` decides membership. -/
theorem containsChar_iff {s : String} {c : Char} :
    containsChar s c = true ↔ c ∈ s.data := by
  simp [containsChar, List.contains, List.elem_iff]

/-- `get_text_by_label` never raises when every label alternative contains a
colon (as `By:`, `Author:`, `Narrated by:` do): when the label is found, its
parent's text contains that colon, so the first strategy already returns. -/
theorem get_text_by_label_ok (body : HtmlList) (pats : List String)
    (hp : ∀ p ∈ pats, ':' ∈ p.data) :
    ∃ v, get_text_by_label (mkRoot body) pats = .ok v := by
  unfold get_text_by_label
  cases hf : findLabelString (mkRoot body) pats with
  | none => exact ⟨none, rfl⟩
  | some t =>
      obtain ⟨i, s, anc⟩ := t
      have hmem := findOccAux_mem hf
      have hanc : ∃ o ∈ occsL body, (o.1, o.2 ++ [mkRoot body]) = (s, anc) := by
        have h1 := hmem.1
        unfold mkRoot at h1 ⊢
        simp only [occsN, List.mem_map] at h1
        exact h1
      obtain ⟨o, ho, heq⟩ := hanc
      injection heq with hs hanc2
      have hanc_ne : anc ≠ [] := by
        rw [← hanc2]
        exact List.append_ne_nil_of_right_ne_nil _ (by simp)
      cases hh : anc.head? with
      | none => exact absurd (List.head?_eq_none_iff.mp hh) hanc_ne
      | some parent =>
          have hpar_mem : parent ∈ anc :=
            List.mem_of_mem_head? (by simp [hh])
          have hs_par : s ∈ textsN parent :=
            (occsN_texts _ _ _ hmem.1).2 parent hpar_mem
          have hcolon_s : ':' ∈ s.data := by
            obtain ⟨p, hpm, hsub⟩ := List.any_eq_true.mp hmem.2
            exact mem_of_containsSub hsub (hp p hpm)
          have hfull : ':' ∈ (getTextS " " parent).data :=
            mem_getTextS_colon hs_par (mem_pystrip_colon hcolon_s) " "
          have hcc : containsChar (getTextS " " parent) ':' = true :=
            containsChar_iff.mpr hfull
          obtain ⟨a, b, hsplit⟩ := splitOnce_of_mem hfull
          dsimp only
          rw [hh]
          dsimp only
          rw [if_pos hcc, hsplit]
          exact ⟨some (pystrip ⟨b⟩), rfl⟩

/-- A digit is not a dash. -/
theorem digit_ne_dash {x : Char} (h : isDigitC x = true) :
    (x == '-') = false := by
  rw [beq_eq_false_iff_ne]
  intro he
  subst he
  exact absurd h (by decide)

/-- The greedy extra year digits are digits. -/
theorem extraDigits_digits :
    ∀ (rest : List Char) (x : Char), x ∈ extraDigits rest →
      isDigitC x = true := by
  intro rest x hx
  match rest with
  | g :: h :: t =>
      rw [extraDigits] at hx
      by_cases hg : isDigitC g = true
      · rw [if_pos hg] at hx
        by_cases hh : isDigitC h = true
        · rw [if_pos hh] at hx
          rcases List.mem_cons.mp hx with hx | hx
          · subst hx; exact hg
          · rw [List.mem_singleton] at hx; subst hx; exact hh
        · rw [if_neg hh] at hx
          rw [List.mem_singleton] at hx; subst hx; exact hg
      · rw [if_neg hg] at hx
        simp at hx
  | [g] =>
      rw [extraDigits] at hx
      by_cases hg : isDigitC g = true
      · rw [if_pos hg] at hx
        rw [List.mem_singleton] at hx; subst hx; exact hg
      · rw [if_neg hg] at hx
        simp at hx
  | [] => simp [extraDigits] at hx

/-- `split(sep)` of a separator-free list is that list alone. -/
theorem splitAll_no_sep {sep : Char} :
    ∀ {g : List Char}, (∀ x ∈ g, (x == sep) = false) →
      splitAll sep g = [g] := by
  intro g
  induction g with
  | nil => intro _; rfl
  | cons x xs ih =>
      intro h
      rw [splitAll, if_neg (by simp [h x (List.mem_cons_self x xs)]),
        ih (fun y hy => h y (List.mem_cons_of_mem x hy))]

/-- `split(sep)` peels off a leading separator-free block. -/
theorem splitAll_block {sep : Char} :
    ∀ {g rest : List Char}, (∀ x ∈ g, (x == sep) = false) →
      splitAll sep (g ++ sep :: rest) = g :: splitAll sep rest := by
  intro g
  induction g with
  | nil =>
      intro rest _
      rw [List.nil_append, splitAll, if_pos (beq_self_eq_true sep)]
  | cons x xs ih =>
      intro rest h
      rw [List.cons_append, splitAll,
        if_neg (by simp [h x (List.mem_cons_self x xs)]),
        ih (fun y hy => h y (List.mem_cons_of_mem x hy))]

/-- A token matched by the date regex splits on dashes into exactly three
groups. -/
theorem dateTokenAt_splitAll {l tok : List Char}
    (h : dateTokenAt l = some tok) :
    ∃ g1 g2 g3, splitAll '-' tok = [g1, g2, g3] := by
  unfold dateTokenAt at h
  split at h
  case h_2 => exact absurd h (by simp)
  case h_1 a b c d e f rest =>
      split at h
      case isFalse => exact absurd h (by simp)
      case isTrue hd =>
        injection h with htok
        simp only [List.all_eq_true, List.mem_cons, List.mem_singleton] at hd
        have hda : isDigitC a = true := hd a (by simp)
        have hdb : isDigitC b = true := hd b (by simp)
        have hdc : isDigitC c = true := hd c (by simp)
        have hdd : isDigitC d = true := hd d (by simp)
        have hde : isDigitC e = true := hd e (by simp)
        have hdf : isDigitC f = true := hd f (by simp)
        have hg1 : ∀ x ∈ [a, b], (x == '-') = false := by
          intro x hx
          rcases List.mem_cons.mp hx with hx | hx
          · subst hx; exact digit_ne_dash hda
          · rw [List.mem_singleton] at hx; subst hx
            exact digit_ne_dash hdb
        have hg3 : ∀ x ∈ e :: f :: extraDigits rest, (x == '-') = false := by
          intro x hx
          rcases List.mem_cons.mp hx with hx | hx
          · subst hx; exact digit_ne_dash hde
          · rcases List.mem_cons.mp hx with hx | hx
            · subst hx; exact digit_ne_dash hdf
            · exact digit_ne_dash (extraDigits_digits rest x hx)
        have hg2 : ∀ x ∈ [c, d], (x == '-') = false := by
          intro x hx
          rcases List.mem_cons.mp hx with hx | hx
          · subst hx; exact digit_ne_dash hdc
          · rw [List.mem_singleton] at hx; subst hx
            exact digit_ne_dash hdd
        refine ⟨[a, b], [c, d], e :: f :: extraDigits rest, ?_⟩
        rw [← htok]
        have hshape : [a, b, '-', c, d, '-', e, f] ++ extraDigits rest =
            [a, b] ++ '-' :: ([c, d] ++ '-' :: (e :: f :: extraDigits rest)) := by
          simp
        rw [hshape, splitAll_block hg1, splitAll_block hg2,
          splitAll_no_sep hg3]

/-- The fallback regex search yields a three-group token. -/
theorem dateTokenSearch_splitAll :
    ∀ {l tok : List Char}, dateTokenSearch l = some tok →
      ∃ g1 g2 g3, splitAll '-' tok = [g1, g2, g3] := by
  intro l
  induction l with
  | nil => intro tok h; simp [dateTokenSearch] at h
  | cons x t ih =>
      intro tok h
      rw [dateTokenSearch] at h
      cases hat : dateTokenAt (x :: t) with
      | some tok2 =>
          rw [hat] at h
          injection h with h2
          subst h2
          exact dateTokenAt_splitAll hat
      | none =>
          rw [hat] at h
          exact ih h

/-- The release-date extraction never raises. -/
theorem releaseOf_ok (root : Html) : ∃ v, releaseOf root = .ok v := by
  unfold releaseOf
  cases hfe : findElemN
      (fun t cs => t == "li" && cs.contains "releaseDateLabel") root with
  | some li =>
      dsimp only
      by_cases hcc : containsChar (getTextS "" li) ':' = true
      · rw [if_pos hcc]
        obtain ⟨a, b, hsplit⟩ :=
          splitOnce_of_mem (containsChar_iff.mp hcc)
        rw [hsplit]
        dsimp only
        cases strptimeMdy (pystrip ⟨b⟩) with
        | some ymd => exact ⟨some (fmtYmd ymd), rfl⟩
        | none => exact ⟨none, rfl⟩
      · rw [if_neg hcc]
        exact ⟨none, rfl⟩
  | none =>
      dsimp only
      cases hfl : findLabelString root ["Release date:"] with
      | none => exact ⟨none, rfl⟩
      | some t =>
          obtain ⟨i, s, anc⟩ := t
          dsimp only
          cases hdt : dateTokenSearch
              (match findParentTag anc ["li", "div"] with
               | some cont => getTextS "" cont
               | none => s).data with
          | none => exact ⟨none, rfl⟩
          | some tok =>
              obtain ⟨g1, g2, g3, hsa⟩ := dateTokenSearch_splitAll hdt
              dsimp only
              rw [hsa]
              dsimp only
              by_cases hlen : (g3.length == 2) = true
              · rw [if_pos hlen]
                cases strptimeMdy ⟨tok⟩ with
                | some ymd => exact ⟨some (fmtYmd ymd), rfl⟩
                | none => exact ⟨none, rfl⟩
              · rw [if_neg hlen]
                cases strptimeMdY ⟨tok⟩ with
                | some ymd => exact ⟨some (fmtYmd ymd), rfl⟩
                | none => exact ⟨none, rfl⟩

/-- The author extraction never raises. -/
theorem authorOf_ok (body : HtmlList) :
    ∃ v, authorOf (mkRoot body) = .ok v := by
  unfold authorOf
  cases findElemN (fun t cs => t == "li" && cs.contains "authorLabel")
      (mkRoot body) with
  | some li => exact ⟨_, rfl⟩
  | none =>
      dsimp only
      have hok := get_text_by_label_ok body ["By:", "Author:"]
        (by intro p hp; rcases List.mem_cons.mp hp with h | h
            · subst h; decide
            · rw [List.mem_singleton] at h; subst h; decide)
      cases get_links_after_label (mkRoot body) ["By:", "Author:"] with
      | some v =>
          dsimp only
          by_cases hv : v ≠ ""
          · rw [if_pos (by simpa using hv)]
            exact ⟨some v, rfl⟩
          · rw [if_neg (by simpa using hv)]
            exact hok
      | none => exact hok

/-- The narrator extraction never raises. -/
theorem narratorOf_ok (body : HtmlList) :
    ∃ v, narratorOf (mkRoot body) = .ok v := by
  unfold narratorOf
  cases findElemN (fun t cs => t == "li" && cs.contains "narratorLabel")
      (mkRoot body) with
  | some li => exact ⟨_, rfl⟩
  | none =>
      dsimp only
      have hok := get_text_by_label_ok body ["Narrated by:"]
        (by intro p hp; rw [List.mem_singleton] at hp; subst hp; decide)
      cases get_links_after_label (mkRoot body) ["Narrated by:"] with
      | some v =>
          dsimp only
          by_cases hv : v ≠ ""
          · rw [if_pos (by simpa using hv)]
            exact ⟨some v, rfl⟩
          · rw [if_neg (by simpa using hv)]
            exact hok
      | none => exact hok

/-- The whole extraction never raises on any parsed body. -/
theorem extractMeta_ok (body : HtmlList) :
    ∃ r, extractMeta (mkRoot body) = .ok r := by
  obtain ⟨a, ha⟩ := authorOf_ok body
  obtain ⟨nr, hn⟩ := narratorOf_ok body
  obtain ⟨rl, hr⟩ := releaseOf_ok (mkRoot body)
  refine ⟨{ title := titleOf (mkRoot body), author := a, narrator := nr,
            release_date := rl }, ?_⟩
  unfold extractMeta
  rw [ha, hn, hr]
  rfl

/-- C5: for every upstream response body (any parsed HTML tree) and any URL
argument, the `fetch_metadata` route never raises an exception to its caller:
it always returns one of the structured results, extraction failures
collapsing to absent optional fields. -/
theorem fetch_metadata_never_raises :
    ∀ (url : Option String) (out : FetchOutcome),
      ∃ r, fetch_metadata url out = .ok r := by
  intro url out
  unfold fetch_metadata
  cases url with
  | none => exact ⟨.badRequest, rfl⟩
  | some u =>
      dsimp only
      by_cases hu : (u == "") = true
      · rw [if_pos hu]
        exact ⟨.badRequest, rfl⟩
      · rw [if_neg hu]
        cases out with
        | failure msg => exact ⟨.fetchError msg, rfl⟩
        | response status body =>
            dsimp only
            by_cases hs : (400 ≤ status && status < 600) = true
            · rw [if_pos hs]
              exact ⟨.fetchError (httpErrorMsg status), rfl⟩
            · rw [if_neg hs]
              obtain ⟨r, hr⟩ := extractMeta_ok body
              exact ⟨.okData r, by rw [hr]; rfl⟩

/-- C6 counterexample: a final status of 304 is not 2xx, yet
`raise_for_status` does not raise for it, so the route parses the (empty)
body and returns a data record rather than the structured error result. -/
theorem fetch_metadata_304_parses :
    fetch_metadata (some "https://www.audible.com/pd/x") (.response 304 .hnil) =
      .ok (.okData { title := none, author := none, narrator := none,
                     release_date := none }) ∧
    ¬ (200 ≤ 304 ∧ 304 < 300) := by
  exact ⟨rfl, by decide⟩

/-- C6 (amended): a network failure, or a final status in 400..599 (the exact
range `raise_for_status` raises for), surfaces as the single structured error
result `{"error": str(e)}` with no partial record; statuses outside that
range — including non-2xx ones such as 304 — fall through to parsing. -/
theorem fetch_metadata_structured_error :
    ∀ (u msg : String) (status : Nat) (body : HtmlList),
      u ≠ "" →
      fetch_metadata (some u) (.failure msg) = .ok (.fetchError msg) ∧
      (400 ≤ status → status < 600 →
        fetch_metadata (some u) (.response status body) =
          .ok (.fetchError (httpErrorMsg status))) := by
  intro u msg status body hu
  have hu2 : (u == "") = false := by simp [hu]
  constructor
  · unfold fetch_metadata
    dsimp only
    rw [if_neg (by simp [hu2])]
  · intro h4 h6
    have hcond : (400 ≤ status && status < 600) = true := by
      simp [h4, h6]
    unfold fetch_metadata
    dsimp only
    rw [if_neg (by simp [hu2])]
    rw [if_pos hcond]

/-- Closed instance of `fetch_metadata_structured_error`: a network failure
and a 500 status both yield the error result. -/
theorem fetch_metadata_structured_error_witness :
    fetch_metadata (some "https://x") (.failure "boom") =
      .ok (.fetchError "boom") ∧
    fetch_metadata (some "https://x") (.response 500 .hnil) =
      .ok (.fetchError (httpErrorMsg 500)) := by
  have h := fetch_metadata_structured_error "https://x" "boom" 500 .hnil
    (by decide)
  exact ⟨h.1, h.2 (by decide) (by decide)⟩

/-- C7 counterexample: the document's `releaseDateLabel` element carries the
token "05-18-2021", which matches `MM-DD-YYYY` and parses to the valid date
2021-05-18, yet the route leaves `release_date` absent — the primary
`releaseDateLabel` path only attempts the two-digit-year format
`%m-%d-%y`. -/
theorem release_date_four_digit_year_dropped :
    fetch_metadata (some "https://www.audible.com/pd/x")
        (.response 200 exampleReleaseBody) =
      .ok (.okData { title := none, author := none, narrator := none,
                     release_date := none }) ∧
    dateTokenSearch "Release date: 05-18-2021".data =
      some "05-18-2021".data ∧
    strptimeMdY "05-18-2021" = some (2021, 5, 18) := by
  exact ⟨rfl, rfl, rfl⟩

/-- C7 (amended): the release date is never synthesized: any present
`release_date` value is the `%Y-%m-%d` rendering of a date obtained from a
successful `strptime` parse (with `%m-%d-%y` or `%m-%d-%Y`), and whenever the
applicable parse fails the field is left absent.  Only the fallback path
(no `releaseDateLabel` element) extracts a `MM-DD-YY`/`MM-DD-YYYY` token by
pattern match; the primary `releaseDateLabel` path applies `%m-%d-%y` alone
to the text after the colon, so four-digit years are dropped there. -/
theorem releaseOf_from_parse :
    ∀ (root : Html) (out : String),
      releaseOf root = .ok (some out) →
      ∃ src ymd, (strptimeMdy src = some ymd ∨ strptimeMdY src = some ymd) ∧
        out = fmtYmd ymd := by
  intro root out h
  unfold releaseOf at h
  cases hfe : findElemN
      (fun t cs => t == "li" && cs.contains "releaseDateLabel") root with
  | some li =>
      simp only [hfe] at h
      by_cases hcc : containsChar (getTextS "" li) ':' = true
      · rw [if_pos hcc] at h
        cases hsp : splitOnce ':' (getTextS "" li).data with
        | nil => simp only [hsp] at h; exact absurd h (by simp)
        | cons a t1 =>
            cases t1 with
            | nil => simp only [hsp] at h; exact absurd h (by simp)
            | cons v t2 =>
                cases t2 with
                | nil =>
                    simp only [hsp] at h
                    cases hst : strptimeMdy (pystrip ⟨v⟩) with
                    | none => simp only [hst] at h; exact absurd h (by simp)
                    | some ymd =>
                        simp only [hst, Except.ok.injEq, Option.some.injEq] at h
                        exact ⟨pystrip ⟨v⟩, ymd, Or.inl hst, h.symm⟩
                | cons w t3 => simp only [hsp] at h; exact absurd h (by simp)
      · rw [if_neg hcc] at h
        exact absurd h (by simp)
  | none =>
      simp only [hfe] at h
      cases hfl : findLabelString root ["Release date:"] with
      | none => simp only [hfl] at h; exact absurd h (by simp)
      | some t =>
          obtain ⟨i, s, anc⟩ := t
          simp only [hfl] at h
          cases hdt : dateTokenSearch
              (match findParentTag anc ["li", "div"] with
               | some cont => getTextS "" cont
               | none => s).data with
          | none => simp only [hdt] at h; exact absurd h (by simp)
          | some tok =>
              simp only [hdt] at h
              cases hsa : splitAll '-' tok with
              | nil => simp only [hsa] at h; exact absurd h (by simp)
              | cons g1 t1 =>
                  cases t1 with
                  | nil => simp only [hsa] at h; exact absurd h (by simp)
                  | cons g2 t2 =>
                      cases t2 with
                      | nil => simp only [hsa] at h; exact absurd h (by simp)
                      | cons g3 t3 =>
                          simp only [hsa] at h
                          by_cases hlen : (g3.length == 2) = true
                          · rw [if_pos hlen] at h
                            cases hst : strptimeMdy ⟨tok⟩ with
                            | none =>
                                simp only [hst] at h
                                exact absurd h (by simp)
                            | some ymd =>
                                simp only [hst, Except.ok.injEq,
                                  Option.some.injEq] at h
                                exact ⟨⟨tok⟩, ymd, Or.inl hst, h.symm⟩
                          · rw [if_neg hlen] at h
                            cases hst : strptimeMdY ⟨tok⟩ with
                            | none =>
                                simp only [hst] at h
                                exact absurd h (by simp)
                            | some ymd =>
                                simp only [hst, Except.ok.injEq,
                                  Option.some.injEq] at h
                                exact ⟨⟨tok⟩, ymd, Or.inr hst, h.symm⟩

/-- Closed instance of `releaseOf_from_parse`: the two-digit-year document
yields "2021-05-18", which is the rendering of the parsed (2021, 5, 18). -/
theorem releaseOf_from_parse_witness :
    ∃ src ymd,
      (strptimeMdy src = some ymd ∨ strptimeMdY src = some ymd) ∧
      "2021-05-18" = fmtYmd ymd :=
  releaseOf_from_parse (mkRoot exampleReleaseBody2) "2021-05-18" rfl
